import Mathlib

/-!
Verification of the storekeeper-hub allocation engine (isnack).

This file gives a shallow embedding of the material-allocation and fan-out
transfer engine found in
`isnack/isnack/page/storekeeper_hub/storekeeper_hub.py` and of the
proportional closure splitter in `isnack/api/mes_ops.py`, and proves or
refutes the testable properties stated in the specification.

Quantities are modelled as rationals (the Python source computes with
floats; every claim examined here is an algebraic property of the
algorithm, stated over exact arithmetic).  Python dictionaries keyed by
item code are modelled as insertion-ordered association lists
(`QMap`), matching CPython dict semantics for the unique-key maps the
source builds.  External data (work-order rows, BOM lines, ledger sums,
warehouse configuration) is passed in explicitly through an `Env`
record, mirroring precisely what the source reads from the database.
-/

namespace Isnack

/-- Association list from item code to quantity; models a Python dict
with string keys in insertion order. -/
abbrev QMap := List (String × ℚ)

/-- Dictionary lookup with default 0, models `d.get(k, 0.0)` (and
`d.get(k, {}).get("qty", 0)` chains in the source). -/
def qlookup : QMap → String → ℚ
  | [], _ => 0
  | (k', v) :: rest, k => if k' = k then v else qlookup rest k

/-- Dictionary insert-or-add, models `d[k] = d.get(k, 0.0) + v`. -/
def qadd : QMap → String → ℚ → QMap
  | [], k, v => [(k, v)]
  | (k', v') :: rest, k, v =>
    if k' = k then (k, v' + v) :: rest else (k', v') :: qadd rest k v

/-- Dictionary overwrite of an existing key, models `d[k] = v` (used by
the source only on keys known to be present). -/
def qset : QMap → String → ℚ → QMap
  | [], _, _ => []
  | (k', v') :: rest, k, v =>
    if k' = k then (k, v) :: rest else (k', v') :: qset rest k v

/-! ## FIFO fan-out allocator

Embedding of the allocation loop of `create_consolidated_transfers`
(storekeeper_hub.py, the `for row in items / for wo in wo_order` pass).
The per-work-order mutable state (its `allocations` dict and its
`remaining[wo]` dict) is carried in `WoState`; the orders appear in the
list in the FIFO order produced by `_order_wos_fifo`. -/

/-- One work order's in-memory allocation state during the fan-out pass:
its name, its `allocations[wo]` dict and its `remaining[wo]` dict. -/
structure WoState where
  wo : String
  alloc : QMap
  rem : QMap
deriving DecidableEq

/-- The early-exit tolerance of the allocation loop, `1e-9` in the source
(`if qty_left <= 1e-9: break`). -/
def epsBreak : ℚ := 1 / 1000000000

/-- The inner `for wo in wo_order` loop of the allocator for a single pool
row (fixed item): for each order in FIFO order take
`min(remaining, qty_left)`, record it, decrement both sides, and break
once `qty_left <= 1e-9`.  Returns the updated states and the leftover
pool quantity. -/
def allocRowGo (item : String) (qtyLeft : ℚ) : List WoState → List WoState × ℚ
  | [] => ([], qtyLeft)
  | st :: rest =>
    let rem := qlookup st.rem item
    if rem ≤ 0 then
      let r := allocRowGo item qtyLeft rest
      (st :: r.1, r.2)
    else
      let take := min rem qtyLeft
      if 0 < take then
        let st' : WoState := ⟨st.wo, qadd st.alloc item take, qset st.rem item (rem - take)⟩
        let q' := qtyLeft - take
        if q' ≤ epsBreak then (st' :: rest, q')
        else
          let r := allocRowGo item q' rest
          (st' :: r.1, r.2)
      else
        if qtyLeft ≤ epsBreak then (st :: rest, qtyLeft)
        else
          let r := allocRowGo item qtyLeft rest
          (st :: r.1, r.2)

/-- One pool row of the pick cart: `item_code`, `qty`, the optional
multi-batch breakdown (`batches`, empty list when absent) and the
optional single batch (`batch_no`, empty string when absent). -/
structure PoolRow where
  itemCode : String
  qty : ℚ
  batches : List (String × ℚ)
  batchNo : String
deriving DecidableEq

/-- The outer `for row in items` loop: rows without an item code or with
non-positive quantity are skipped (`continue`), every other row is fanned
out across the orders by `allocRowGo`. -/
def allocateAll (rows : List PoolRow) (sts : List WoState) : List WoState :=
  rows.foldl
    (fun s r => if r.itemCode.isEmpty || r.qty ≤ 0 then s else (allocRowGo r.itemCode r.qty s).1)
    sts

/-- Total quantity of `item` recorded in the `allocations` dicts of the
given states. -/
def allocTotals (item : String) (sts : List WoState) : ℚ :=
  (sts.map (fun st => qlookup st.alloc item)).sum

/-- Total remaining requirement for `item` across the given states. -/
def remTotals (item : String) (sts : List WoState) : ℚ :=
  (sts.map (fun st => qlookup st.rem item)).sum

/-! ## Rounding and batch-proportional splitting

Embedding of `_round_up_qty` and of the multi-batch emission loop inside
`create_consolidated_transfers` (the `for i, batch_item in
enumerate(batch_info)` block). -/

/-- The source's `_round_up_qty(value, precision=3)`: ceiling to three
decimal places (both call sites use precision 3). -/
def roundUpQty (x : ℚ) : ℚ := (Int.ceil (x * 1000) : ℚ) / 1000

/-- One item line appended to a Stock Entry. -/
structure SELine where
  itemCode : String
  qty : ℚ
  batchNo : Option String
deriving DecidableEq

/-- The multi-batch emission loop for one (order, item) allocation:
`r` is the order's rounded allocated quantity, `total` the
`total_batch_qty`, `acc` the running `allocated_so_far`.  Batch entries
with non-positive quantity are skipped; every entry before the last gets
`round_up(r * qty / total)`; the last entry gets the clamped residual
`max(0, r - allocated_so_far)`; only positive line quantities are
emitted. -/
def batchSplitGo (ic : String) (r total acc : ℚ) : List (String × ℚ) → List SELine
  | [] => []
  | [(bid, bq)] =>
    if bq ≤ 0 then []
    else
      let lineQty := max 0 (r - acc)
      if 0 < lineQty then [⟨ic, lineQty, some bid⟩] else []
  | (bid, bq) :: b2 :: rest =>
    if bq ≤ 0 then batchSplitGo ic r total acc (b2 :: rest)
    else
      let lineQty := roundUpQty (r * (bq / total))
      (if 0 < lineQty then [⟨ic, lineQty, some bid⟩] else [])
        ++ batchSplitGo ic r total (acc + lineQty) (b2 :: rest)

/-- Batch information recorded for an item in `batch_info_map`: a
nonempty multi-batch list, a single batch string, or nothing. -/
inductive BatchInfo where
  | multi (bs : List (String × ℚ))
  | single (b : String)
  | noBatch
deriving DecidableEq

/-- Batch info derived from one cart row (`batches` wins over
`batch_no`; both absent gives `None`). -/
def rowBatchInfo (r : PoolRow) : BatchInfo :=
  if 0 < r.batches.length then .multi r.batches
  else if ¬ r.batchNo.isEmpty then .single r.batchNo
  else .noBatch

/-- The `batch_info_map` dict: item code to batch info, later cart rows
overwriting earlier ones; rows without item code skipped. -/
def batchInfoMap (rows : List PoolRow) : String → BatchInfo :=
  rows.foldl
    (fun f r =>
      if r.itemCode.isEmpty then f
      else fun k => if k = r.itemCode then rowBatchInfo r else f k)
    (fun _ => .noBatch)

/-- The per-item emission block of `create_consolidated_transfers`:
round the allocated quantity up to 3 decimals, then emit one line (single
or no batch) or the multi-batch split; a multi-batch breakdown whose
total quantity is non-positive emits nothing (`continue`). -/
def buildLinesForItem (bi : BatchInfo) (ic : String) (qty : ℚ) : List SELine :=
  let rounded := roundUpQty qty
  match bi with
  | .multi bs =>
    let total := (bs.map (fun b => b.2)).sum
    if total ≤ 0 then [] else batchSplitGo ic rounded total 0 bs
  | .single b => [⟨ic, rounded, some b⟩]
  | .noBatch => [⟨ic, rounded, none⟩]

/-- The running `allocated_so_far` total produced by the non-last batch
entries: each positive entry before the last contributes its rounded-up
proportional share. -/
def earlierRounded (r total : ℚ) : List (String × ℚ) → ℚ
  | [] => 0
  | [_] => 0
  | (_, bq) :: b2 :: rest =>
    (if bq ≤ 0 then 0 else roundUpQty (r * (bq / total))) + earlierRounded r total (b2 :: rest)

/-- Sum of the quantities of a list of emitted stock-entry lines. -/
def sumLineQty (ls : List SELine) : ℚ := (ls.map (fun l => l.qty)).sum

/-! ## Warehouse resolution and remaining requirements

Embedding of `_staging_for(wo) or _wip_for(wo)` falsy chaining and of
`_remaining_map_for_wo`. -/

/-- Python's `_staging_for(wo) or _wip_for(wo)` followed by the falsy
check `if not target_wh`: `_staging_for` returns `None` or a warehouse
string, `_wip_for` returns the WIP warehouse or `""`. -/
def resolveTargetWh (staging : Option String) (wip : String) : Option String :=
  match staging with
  | some s => if s.isEmpty then (if wip.isEmpty then none else some wip) else some s
  | none => if wip.isEmpty then none else some wip

/-- The loop body of `_remaining_map_for_wo`: for each required item,
`rem = max(0, required - transferred)`, keeping only items with
`rem > 0`. -/
def remainingFromMaps (req haveMap : QMap) : QMap :=
  req.filterMap
    (fun p =>
      let rem := max 0 (p.2 - qlookup haveMap p.1)
      if 0 < rem then some (p.1, rem) else none)

/-- The source's `_remaining_map_for_wo`: resolve the target warehouse
(staging, else WIP); if none resolves the transferred map is taken empty
(`have = {} if not target_wh`) and the computation still returns a
result. -/
def remainingMapForWo (req : QMap) (transferredInto : String → QMap)
    (staging : Option String) (wip : String) : QMap :=
  match resolveTargetWh staging wip with
  | some w => remainingFromMaps req (transferredInto w)
  | none => remainingFromMaps req []

/-- External data read by the engine: per-item batch-tracking flag,
per-order required map (BOM explosion times order quantity), ledger sums
per order and warehouse, warehouse configuration, and the Stock Settings
default source warehouse (empty string when unset). -/
structure Env where
  hasBatchNo : String → Bool
  requiredMap : String → QMap
  transferredInto : String → String → QMap
  staging : String → Option String
  wip : String → String
  defaultWarehouse : String

/-- A work order's initial allocation state:
`remaining = _remaining_map_for_wo(wo)`, empty allocations. -/
def woInitState (env : Env) (wo : String) : WoState :=
  ⟨wo, [],
    remainingMapForWo (env.requiredMap wo) (env.transferredInto wo)
      (env.staging wo) (env.wip wo)⟩

/-! ## FIFO ordering of work orders

Embedding of `_order_wos_fifo`, which asks the database for the selected
Work Order rows with `order_by="planned_start_date asc, creation asc"`
and appends any selected name the query did not return.  The database's
answer is modelled relationally by `dbResultOk`: any permutation of the
candidate rows that is sorted by the SQL ordering key (`NULL` planned
start sorts first; rows equal on both columns come back in an
unspecified order). -/

/-- A Work Order row as fetched by `_order_wos_fifo`: name, nullable
planned-start timestamp, creation timestamp. -/
structure WORow where
  name : String
  plannedStart : Option Nat
  creation : Nat
deriving DecidableEq

/-- SQL `asc` comparison on a nullable timestamp column: `NULL` sorts
before every value. -/
def optLT : Option Nat → Option Nat → Prop
  | none, none => False
  | none, some _ => True
  | some _, none => False
  | some a, some b => a < b

instance : DecidableRel optLT := fun a b =>
  match a, b with
  | none, none => isFalse (fun h => h)
  | none, some _ => isTrue True.intro
  | some _, none => isFalse (fun h => h)
  | some x, some y => inferInstanceAs (Decidable (x < y))

/-- The SQL ordering key of `_order_wos_fifo`:
`planned_start_date asc, creation asc` (lexicographic, NULLs first). -/
def keyLE (a b : WORow) : Prop :=
  optLT a.plannedStart b.plannedStart ∨
    (a.plannedStart = b.plannedStart ∧ a.creation ≤ b.creation)

/-- Strict version of the SQL ordering key. -/
def keyLT (a b : WORow) : Prop :=
  optLT a.plannedStart b.plannedStart ∨
    (a.plannedStart = b.plannedStart ∧ a.creation < b.creation)

/-- The pair of sort columns of a row. -/
def keyPair (r : WORow) : Option Nat × Nat := (r.plannedStart, r.creation)

instance : ∀ a b : WORow, Decidable (keyLE a b) := fun a b => by
  unfold keyLE
  infer_instance

instance : ∀ a b : WORow, Decidable (keyLT a b) := fun a b => by
  unfold keyLT
  infer_instance

/-- Relational model of the database query in `_order_wos_fifo`: the
returned rows are some permutation of the candidate rows (the Work Order
rows whose names are selected) that satisfies the `ORDER BY`. -/
def dbResultOk (candidates rows : List WORow) : Prop :=
  rows.Perm candidates ∧ rows.Sorted keyLE

instance (candidates rows : List WORow) : Decidable (dbResultOk candidates rows) := by
  unfold dbResultOk
  infer_instance

/-- The rest of `_order_wos_fifo`: empty input gives `[]`; otherwise the
names of the returned rows, followed by any selected name the query did
not return, in input order. -/
def orderWosFifo (woNames : List String) (dbRows : List WORow) : List String :=
  if woNames.isEmpty then []
  else
    let order := dbRows.map (fun r => r.name)
    order ++ woNames.filter (fun w => ¬ order.contains w)

/-- Modelled from the spec (not the source): the ordering key the
specification asserts for `_order_wos_fifo` — ascending by planned-start
timestamp falling back to creation timestamp (the spec further breaks
ties by the order identifier, so any service order it permits is in
particular sorted by this key, and is unique). -/
def specFifoLE (a b : WORow) : Prop :=
  a.plannedStart.getD a.creation ≤ b.plannedStart.getD b.creation

instance : ∀ a b : WORow, Decidable (specFifoLE a b) := fun a b => by
  unfold specFifoLE
  infer_instance

/-! ## The full fan-out pipeline

Embedding of `create_consolidated_transfers` end to end: input
validation, batch-requirement validation, batch info map, FIFO ordering,
remaining snapshot, allocation, and per-order Stock Entry construction.
Stock Entry persistence (`se.insert(); se.submit()`) is the external
Inventory Ledger commit and is out of scope; a constructed `Transfer`
value stands for one committed entry. -/

/-- Errors raised (`frappe.throw`) by `create_consolidated_transfers`. -/
inductive HubError where
  | noWorkOrders
  | noItems
  | noSourceWarehouse
  | batchRequired (item : String)
  | noTargetWarehouse (wo : String)
deriving DecidableEq

/-- One constructed Stock Entry: target work order, destination
warehouse, item lines. -/
structure Transfer where
  workOrder : String
  toWarehouse : String
  lines : List SELine
deriving DecidableEq

/-- The batch-requirement validation loop: the first cart row whose item
is batch-tracked but carries neither a multi-batch list nor a single
batch number triggers `frappe.throw("Batch No is required...")`. -/
def firstBatchError (env : Env) : List PoolRow → Option String
  | [] => none
  | r :: rest =>
    if r.itemCode.isEmpty then firstBatchError env rest
    else if env.hasBatchNo r.itemCode && r.batches.isEmpty && r.batchNo.isEmpty then
      some r.itemCode
    else firstBatchError env rest

/-- The emitted lines of one order's Stock Entry, iterating its
`allocations` dict in insertion order. -/
def linesForAlloc (bi : String → BatchInfo) : QMap → List SELine
  | [] => []
  | p :: rest => buildLinesForItem (bi p.1) p.1 p.2 ++ linesForAlloc bi rest

/-- Construction of one order's Stock Entry: orders with an empty
allocation are skipped; a missing staging and WIP warehouse raises
`NoTargetWarehouse`. -/
def buildTransferForWo (env : Env) (bi : String → BatchInfo) (st : WoState) :
    Except HubError (Option Transfer) :=
  if st.alloc.isEmpty then .ok none
  else
    match resolveTargetWh (env.staging st.wo) (env.wip st.wo) with
    | none => .error (.noTargetWarehouse st.wo)
    | some target => .ok (some ⟨st.wo, target, linesForAlloc bi st.alloc⟩)

/-- The `for wo in wo_order` construction loop over the allocated
states. -/
def buildTransfers (env : Env) (bi : String → BatchInfo) :
    List WoState → Except HubError (List Transfer)
  | [] => .ok []
  | st :: rest =>
    match buildTransferForWo env bi st with
    | .error e => .error e
    | .ok none => buildTransfers env bi rest
    | .ok (some t) =>
      match buildTransfers env bi rest with
      | .error e => .error e
      | .ok ts => .ok (t :: ts)

/-- The whole of `create_consolidated_transfers`: validation in source
order, then batch info map, FIFO order, remaining snapshot, allocation,
and Stock Entry construction. -/
def createConsolidatedTransfers (env : Env) (sourceWarehouse : String)
    (selectedWos : List String) (dbRows : List WORow) (rows : List PoolRow) :
    Except HubError (List Transfer) :=
  if selectedWos.isEmpty then .error .noWorkOrders
  else if rows.isEmpty then .error .noItems
  else
    let src := if sourceWarehouse.isEmpty then env.defaultWarehouse else sourceWarehouse
    if src.isEmpty then .error .noSourceWarehouse
    else
      match firstBatchError env rows with
      | some ic => .error (.batchRequired ic)
      | none =>
        let bi := batchInfoMap rows
        let woOrder := orderWosFifo selectedWos dbRows
        let initSts := woOrder.map (woInitState env)
        let finalSts := allocateAll rows initSts
        buildTransfers env bi finalSts

/-! ## Stage-status classifier

Embedding of `_stage_status` and `_required_leaf_map_for_wo`.  The
committed movement rows for the resolved warehouse are an input
(`rows`); the comparison precision function `p` models
`flt(x, qty_precision)` with the configured precision. -/

/-- One BOM Item row: item code, quantity per unit of output, and its
`bom_no` (empty when the line is a leaf raw material). -/
structure BOMLine where
  itemCode : String
  qtyPerUnit : ℚ
  bomNo : String
deriving DecidableEq

/-- The source's `_required_leaf_map_for_wo`: leaf lines only
(`coalesce(bi.bom_no, '') = ''`), summed per item and scaled by the
order quantity. -/
def requiredLeafMapForWo (bomLines : List BOMLine) (woQty : ℚ) : QMap :=
  (bomLines.filter (fun l => l.bomNo.isEmpty)).foldl
    (fun m l => qadd m l.itemCode (l.qtyPerUnit * woQty)) []

/-- The source's `_stage_status`: no resolvable warehouse or no movement
rows gives "Not Staged"; otherwise "Partial" iff some required leaf item
has `flt(transferred) < flt(required)` at the configured precision. -/
def stageStatus (staging : Option String) (wip : String) (rows : QMap)
    (bomLines : List BOMLine) (woQty : ℚ) (p : ℚ → ℚ) : String :=
  match resolveTargetWh staging wip with
  | none => "Not Staged"
  | some _ =>
    if rows.isEmpty then "Not Staged"
    else
      let req := requiredLeafMapForWo bomLines woQty
      if req.any (fun pr => decide (p (qlookup rows pr.1) < p pr.2)) then "Partial"
      else "Staged"

/-! ## Proportional closure splitter

Embedding of `_calculate_proportional_split` (mes_ops.py). -/

/-- One order's share of the aggregate closure quantities. -/
structure ClosureShare where
  woName : String
  good : ℚ
  reject : ℚ
  packaging : List (String × ℚ)
deriving DecidableEq

/-- The source's `_calculate_proportional_split`: throws when the total
planned quantity is non-positive, otherwise gives every order
`aggregate * (qty / total)` for good, reject and each packaging item. -/
def calculateProportionalSplit (endedWos : List (String × ℚ))
    (totalGood totalReject : ℚ) (packagingItems : List (String × ℚ)) :
    Option (List ClosureShare) :=
  let totalWoQty := (endedWos.map (fun w => w.2)).sum
  if totalWoQty ≤ 0 then none
  else
    some (endedWos.map (fun w =>
      let proportion := w.2 / totalWoQty
      ⟨w.1, totalGood * proportion, totalReject * proportion,
        packagingItems.map (fun it => (it.1, it.2 * proportion))⟩))

/-! ## Concrete inputs used by counterexamples and witnesses -/

/-- Two orders demanding ITEM-X; the first one's remaining requirement
sits within the break tolerance below the pool quantity. -/
def cexStates : List WoState :=
  [⟨"WO-1", [], [("ITEM-X", 2 - 1 / 1000000000)]⟩,
   ⟨"WO-2", [], [("ITEM-X", 5)]⟩]

/-- A minimal environment: one non-batch item required 5 units per
order, nothing transferred yet, a staging warehouse configured. -/
def envSimple : Env :=
  { hasBatchNo := fun _ => false
    requiredMap := fun _ => [("ITEM-X", 5)]
    transferredInto := fun _ _ => []
    staging := fun _ => some "STG-WH"
    wip := fun _ => ""
    defaultWarehouse := "MAIN-WH" }

/-- Environment in which no staging and no WIP warehouse resolve. -/
def envNoWh : Env :=
  { envSimple with staging := fun _ => none, wip := fun _ => "" }

/-- Relation between one work order's state before and after (part of)
the allocation pass: the name is unchanged, allocated plus remaining is
conserved per item, and nonnegative remaining quantities stay
nonnegative. -/
def StepInv (a b : WoState) : Prop :=
  b.wo = a.wo ∧
  (∀ k, qlookup b.alloc k + qlookup b.rem k = qlookup a.alloc k + qlookup a.rem k) ∧
  (∀ k, 0 ≤ qlookup a.rem k → 0 ≤ qlookup b.rem k)

/-- All allocations recorded for one work order are strictly positive
(the allocator only records takes with `take > 0`). -/
def AllocPos (st : WoState) : Prop := ∀ p ∈ st.alloc, 0 < p.2

/-! # Theorems -/

theorem qlookup_qadd_self (m : QMap) (k : String) (v : ℚ) :
    qlookup (qadd m k v) k = qlookup m k + v := by
  induction m with
  | nil => simp [qadd, qlookup]
  | cons p rest ih =>
    by_cases h : p.1 = k
    · simp [qadd, qlookup, h]
    · simp [qadd, qlookup, h, ih]

theorem qlookup_qadd_other (m : QMap) (k k' : String) (v : ℚ) (h : k' ≠ k) :
    qlookup (qadd m k v) k' = qlookup m k' := by
  have hk : k ≠ k' := Ne.symm h
  induction m with
  | nil => simp [qadd, qlookup, hk]
  | cons p rest ih =>
    by_cases hp : p.1 = k
    · subst hp
      simp [qadd, qlookup, hk]
    · simp only [qadd, if_neg hp]
      by_cases hp' : p.1 = k'
      · simp [qlookup, hp']
      · simp [qlookup, hp', ih]

theorem qlookup_qset_self (m : QMap) (k : String) (v : ℚ)
    (h : qlookup m k ≠ 0) : qlookup (qset m k v) k = v := by
  induction m with
  | nil => simp [qlookup] at h
  | cons p rest ih =>
    by_cases hp : p.1 = k
    · simp [qset, hp, qlookup]
    · simp only [qlookup, if_neg hp] at h
      simp [qset, hp, qlookup, ih h]

theorem qlookup_qset_other (m : QMap) (k k' : String) (v : ℚ) (h : k' ≠ k) :
    qlookup (qset m k v) k' = qlookup m k' := by
  have hk : k ≠ k' := Ne.symm h
  induction m with
  | nil => simp [qset]
  | cons p rest ih =>
    by_cases hp : p.1 = k
    · subst hp
      simp [qset, qlookup, hk, ih]
    · by_cases hp' : p.1 = k'
      · simp [qset, hp, qlookup, hp', h]
      · simp [qset, hp, qlookup, hp', ih]

theorem qlookup_nonneg_of_entries (m : QMap) (k : String)
    (h : ∀ p ∈ m, 0 ≤ p.2) : 0 ≤ qlookup m k := by
  induction m with
  | nil => simp [qlookup]
  | cons p rest ih =>
    by_cases hp : p.1 = k
    · simpa [qlookup, hp] using h p (by simp)
    · exact (by simpa [qlookup, hp] using ih (fun q hq => h q (by simp [hq])))

theorem epsBreak_pos : 0 < epsBreak := by norm_num [epsBreak]

/-- Leftover pool quantity stays nonnegative. -/
theorem allocRowGo_qty_nonneg (item : String) (q : ℚ) (sts : List WoState)
    (hq : 0 ≤ q) : 0 ≤ (allocRowGo item q sts).2 := by
  induction sts generalizing q with
  | nil => simpa [allocRowGo]
  | cons st rest ih =>
    simp only [allocRowGo]
    by_cases h1 : qlookup st.rem item ≤ 0
    · simpa [h1] using ih q hq
    · simp only [if_neg h1]
      by_cases h2 : 0 < min (qlookup st.rem item) q
      · have htq : min (qlookup st.rem item) q ≤ q := min_le_right _ _
        by_cases h3 : q - min (qlookup st.rem item) q ≤ epsBreak
        · simp only [if_pos h2, if_pos h3]
          linarith
        · simpa [h2, h3] using ih (q - min (qlookup st.rem item) q) (by linarith)
      · by_cases h4 : q ≤ epsBreak
        · simpa [h2, h4]
        · simpa [h2, h4] using ih q hq

/-- Conservation: the allocated total grows by exactly the pool quantity
consumed. -/
theorem allocRowGo_alloc_sum (item : String) (q : ℚ) (sts : List WoState) :
    allocTotals item (allocRowGo item q sts).1
      = allocTotals item sts + (q - (allocRowGo item q sts).2) := by
  induction sts generalizing q with
  | nil => simp [allocRowGo, allocTotals]
  | cons st rest ih =>
    simp only [allocRowGo]
    by_cases h1 : qlookup st.rem item ≤ 0
    · simp only [if_pos h1]
      simp only [allocTotals, List.map_cons, List.sum_cons] at ih ⊢
      linarith [ih q]
    · simp only [if_neg h1]
      by_cases h2 : 0 < min (qlookup st.rem item) q
      · by_cases h3 : q - min (qlookup st.rem item) q ≤ epsBreak
        · simp only [if_pos h2, if_pos h3, allocTotals, List.map_cons, List.sum_cons,
            qlookup_qadd_self]
          ring
        · simp only [if_pos h2, if_neg h3, allocTotals, List.map_cons, List.sum_cons,
            qlookup_qadd_self]
          simp only [allocTotals] at ih
          linarith [ih (q - min (qlookup st.rem item) q)]
      · by_cases h4 : q ≤ epsBreak
        · simp [h2, h4, allocTotals]
        · simp only [if_neg h2, if_neg h4, allocTotals, List.map_cons, List.sum_cons]
          simp only [allocTotals] at ih
          linarith [ih q]

/-- Conservation for the remaining side: remaining totals shrink by the
consumed pool quantity. -/
theorem allocRowGo_rem_sum (item : String) (q : ℚ) (sts : List WoState) :
    remTotals item (allocRowGo item q sts).1
      = remTotals item sts - (q - (allocRowGo item q sts).2) := by
  induction sts generalizing q with
  | nil => simp [allocRowGo, remTotals]
  | cons st rest ih =>
    simp only [allocRowGo]
    by_cases h1 : qlookup st.rem item ≤ 0
    · simp only [if_pos h1]
      simp only [remTotals, List.map_cons, List.sum_cons] at ih ⊢
      linarith [ih q]
    · simp only [if_neg h1]
      have hne : qlookup st.rem item ≠ 0 := by linarith [lt_of_not_le h1]
      by_cases h2 : 0 < min (qlookup st.rem item) q
      · by_cases h3 : q - min (qlookup st.rem item) q ≤ epsBreak
        · simp only [if_pos h2, if_pos h3, remTotals, List.map_cons, List.sum_cons,
            qlookup_qset_self _ _ _ hne]
          ring
        · simp only [if_pos h2, if_neg h3, remTotals, List.map_cons, List.sum_cons,
            qlookup_qset_self _ _ _ hne]
          simp only [remTotals] at ih
          linarith [ih (q - min (qlookup st.rem item) q)]
      · by_cases h4 : q ≤ epsBreak
        · simp [h2, h4, remTotals]
        · simp only [if_neg h2, if_neg h4, remTotals, List.map_cons, List.sum_cons]
          simp only [remTotals] at ih
          linarith [ih q]

/-- If the loop finished with leftover above the break tolerance, every
order's remaining requirement for the item was driven to zero (or was
nonpositive to begin with). -/
theorem allocRowGo_exhausts (item : String) (q : ℚ) (sts : List WoState)
    (h : epsBreak < (allocRowGo item q sts).2) :
    ∀ st ∈ (allocRowGo item q sts).1, qlookup st.rem item ≤ 0 := by
  induction sts generalizing q with
  | nil => simp [allocRowGo]
  | cons st rest ih =>
    simp only [allocRowGo] at h ⊢
    by_cases h1 : qlookup st.rem item ≤ 0
    · simp only [if_pos h1] at h ⊢
      intro x hx
      rcases List.mem_cons.1 hx with rfl | hx'
      · exact h1
      · exact ih q (by simpa using h) x hx'
    · simp only [if_neg h1] at h ⊢
      have hrem : 0 < qlookup st.rem item := lt_of_not_le h1
      have hne : qlookup st.rem item ≠ 0 := ne_of_gt hrem
      by_cases h2 : 0 < min (qlookup st.rem item) q
      · by_cases h3 : q - min (qlookup st.rem item) q ≤ epsBreak
        · simp only [if_pos h2, if_pos h3] at h
          exact absurd h (not_lt.2 h3)
        · simp only [if_pos h2, if_neg h3] at h ⊢
          intro x hx
          rcases List.mem_cons.1 hx with rfl | hx'
          · have hmin : min (qlookup st.rem item) q = qlookup st.rem item := by
              rcases min_cases (qlookup st.rem item) q with ⟨he, _⟩ | ⟨he, hle⟩
              · exact he
              · exfalso
                apply h3
                rw [he]
                simp [epsBreak_pos.le]
            simp [qlookup_qset_self _ _ _ hne, hmin]
          · exact ih (q - min (qlookup st.rem item) q) h x hx'
      · by_cases h4 : q ≤ epsBreak
        · simp only [if_neg h2, if_pos h4] at h
          exact absurd h (not_lt.2 h4)
        · exfalso
          have hq0 : q ≤ 0 := by
            have := not_lt.1 h2
            rcases min_cases (qlookup st.rem item) q with ⟨he, _⟩ | ⟨he, _⟩
            · rw [he] at this; linarith
            · rw [he] at this; exact this
          exact h4 (le_trans hq0 epsBreak_pos.le)

/-- Sum of remaining requirements over states that are all exhausted is
nonpositive. -/
theorem remTotals_nonpos (item : String) (sts : List WoState)
    (h : ∀ st ∈ sts, qlookup st.rem item ≤ 0) : remTotals item sts ≤ 0 := by
  induction sts with
  | nil => simp [remTotals]
  | cons st rest ih =>
    have h1 := h st (by simp)
    have h2 : remTotals item rest ≤ 0 := ih (fun x hx => h x (by simp [hx]))
    simp only [remTotals, List.map_cons, List.sum_cons]
    simp only [remTotals] at h2
    linarith

/-- Claim C1, counterexample.  The claim states that the allocated total
for a pool line equals the pool quantity whenever the total remaining
requirement across the selected work orders is at least the pool
quantity.  With pool quantity 2 and remaining requirements
`2 - 1e-9` (WO-1) and `5` (WO-2), the total remaining requirement
`7 - 1e-9` exceeds the pool, yet the `qty_left <= 1e-9` early break
fires after serving WO-1 and the allocated total is `2 - 1e-9`, not 2. -/
theorem claim_C1_counterexample :
    (2 : ℚ) ≤ remTotals "ITEM-X" cexStates ∧
    allocTotals "ITEM-X" (allocRowGo "ITEM-X" 2 cexStates).1 ≠ 2 := by
  constructor
  · simp [remTotals, cexStates, qlookup]
    norm_num
  · simp [allocTotals, cexStates, allocRowGo, qlookup, qadd, qset, epsBreak, min_def]
    norm_num [qlookup]

/-- Claim C1, amended.  For every pool row with nonnegative quantity, the
total quantity allocated across all work orders grows by at most the pool
quantity; and whenever the total remaining requirement for the item is at
least the pool quantity, the shortfall of the allocated total below the
pool quantity is at most the loop's `1e-9` early-exit tolerance (rather
than exactly zero, as the original claim states). -/
theorem claim_C1_amended (item : String) (q : ℚ) (sts : List WoState)
    (hq : 0 ≤ q) :
    allocTotals item (allocRowGo item q sts).1 ≤ allocTotals item sts + q ∧
    (q ≤ remTotals item sts →
      allocTotals item sts + q - allocTotals item (allocRowGo item q sts).1 ≤ epsBreak) := by
  have hsum := allocRowGo_alloc_sum item q sts
  have hq' := allocRowGo_qty_nonneg item q sts hq
  constructor
  · linarith
  · intro hdem
    by_cases hle : (allocRowGo item q sts).2 ≤ epsBreak
    · linarith
    · exfalso
      have hgt : epsBreak < (allocRowGo item q sts).2 := lt_of_not_le hle
      have hex := allocRowGo_exhausts item q sts hgt
      have hnp := remTotals_nonpos item _ hex
      have hrs := allocRowGo_rem_sum item q sts
      have hpos := epsBreak_pos
      linarith

/-- Claim C1, witness: the amended theorem applied to the concrete
two-order scenario with pool quantity 2. -/
theorem claim_C1_witness :
    ((0 : ℚ) ≤ 2 ∧ (2 : ℚ) ≤ remTotals "ITEM-X" cexStates) ∧
    allocTotals "ITEM-X" (allocRowGo "ITEM-X" 2 cexStates).1
      ≤ allocTotals "ITEM-X" cexStates + 2 ∧
    allocTotals "ITEM-X" cexStates + 2
        - allocTotals "ITEM-X" (allocRowGo "ITEM-X" 2 cexStates).1 ≤ epsBreak :=
  ⟨⟨by norm_num, by simp [remTotals, cexStates, qlookup]; norm_num⟩,
    (claim_C1_amended "ITEM-X" 2 cexStates (by norm_num)).1,
    (claim_C1_amended "ITEM-X" 2 cexStates (by norm_num)).2
      (by simp [remTotals, cexStates, qlookup]; norm_num)⟩

theorem stepInv_refl (a : WoState) : StepInv a a :=
  ⟨rfl, fun _ => rfl, fun _ h => h⟩

theorem stepInv_trans {a b c : WoState} (h : StepInv a b) (g : StepInv b c) :
    StepInv a c :=
  ⟨g.1.trans h.1, fun k => (g.2.1 k).trans (h.2.1 k),
    fun k hk => g.2.2 k (h.2.2 k hk)⟩

theorem forall₂_stepInv_refl (l : List WoState) : List.Forall₂ StepInv l l :=
  List.forall₂_same.2 (fun x _ => stepInv_refl x)

theorem forall₂_stepInv_trans {l1 l2 l3 : List WoState}
    (h : List.Forall₂ StepInv l1 l2) (g : List.Forall₂ StepInv l2 l3) :
    List.Forall₂ StepInv l1 l3 := by
  induction h generalizing l3 with
  | nil =>
    cases g
    exact .nil
  | cons hab hrest ih =>
    cases g with
    | cons hbc hrest2 => exact .cons (stepInv_trans hab hbc) (ih hrest2)

/-- One allocation pass respects the per-order invariant. -/
theorem allocRowGo_stepInv (item : String) (q : ℚ) (sts : List WoState) :
    List.Forall₂ StepInv sts (allocRowGo item q sts).1 := by
  induction sts generalizing q with
  | nil => simp [allocRowGo]
  | cons st rest ih =>
    simp only [allocRowGo]
    by_cases h1 : qlookup st.rem item ≤ 0
    · simp only [if_pos h1]
      exact .cons (stepInv_refl st) (ih q)
    · simp only [if_neg h1]
      have hrem : 0 < qlookup st.rem item := lt_of_not_le h1
      have hne : qlookup st.rem item ≠ 0 := ne_of_gt hrem
      have hstep : StepInv st
          ⟨st.wo, qadd st.alloc item (min (qlookup st.rem item) q),
            qset st.rem item (qlookup st.rem item - min (qlookup st.rem item) q)⟩ := by
        refine ⟨rfl, ?_, ?_⟩
        · intro k
          by_cases hk : k = item
          · rw [hk]
            simp only [qlookup_qadd_self, qlookup_qset_self _ _ _ hne]
            ring
          · simp [qlookup_qadd_other _ _ _ _ hk, qlookup_qset_other _ _ _ _ hk]
        · intro k hk
          by_cases hkk : k = item
          · rw [hkk, qlookup_qset_self _ _ _ hne]
            have hmin := min_le_left (qlookup st.rem item) q
            linarith
          · rwa [qlookup_qset_other _ _ _ _ hkk]
      by_cases h2 : 0 < min (qlookup st.rem item) q
      · by_cases h3 : q - min (qlookup st.rem item) q ≤ epsBreak
        · simp only [if_pos h2, if_pos h3]
          exact .cons hstep (forall₂_stepInv_refl rest)
        · simp only [if_pos h2, if_neg h3]
          exact .cons hstep (ih _)
      · by_cases h4 : q ≤ epsBreak
        · simp only [if_neg h2, if_pos h4]
          exact .cons (stepInv_refl st) (forall₂_stepInv_refl rest)
        · simp only [if_neg h2, if_neg h4]
          exact .cons (stepInv_refl st) (ih q)

/-- The whole multi-row allocation respects the per-order invariant. -/
theorem allocateAll_stepInv (rows : List PoolRow) (sts : List WoState) :
    List.Forall₂ StepInv sts (allocateAll rows sts) := by
  induction rows generalizing sts with
  | nil => simpa [allocateAll] using forall₂_stepInv_refl sts
  | cons r rest ih =>
    simp only [allocateAll, List.foldl_cons]
    split
    · simpa [allocateAll] using ih sts
    · exact forall₂_stepInv_trans (allocRowGo_stepInv r.itemCode r.qty sts)
        (by simpa [allocateAll] using ih (allocRowGo r.itemCode r.qty sts).1)

/-- Every entry of a remaining map is strictly positive. -/
theorem remainingFromMaps_pos (req haveMap : QMap) :
    ∀ p ∈ remainingFromMaps req haveMap, 0 < p.2 := by
  intro p hp
  simp only [remainingFromMaps, List.mem_filterMap] at hp
  obtain ⟨a, _, hif⟩ := hp
  split at hif
  · cases hif
    assumption
  · cases hif

/-- From the step invariant and the initial shape of the states (empty
allocations, nonnegative remaining) each order's final allocation per
item is bounded by its initial remaining requirement. -/
theorem forall₂_alloc_le_rem {l1 l2 : List WoState}
    (hstep : List.Forall₂ StepInv l1 l2)
    (hmem : ∀ a ∈ l1, a.alloc = [] ∧ ∀ p ∈ a.rem, 0 ≤ p.2) :
    List.Forall₂ (fun a b => ∀ k, qlookup b.alloc k ≤ qlookup a.rem k) l1 l2 := by
  induction hstep with
  | nil => exact .nil
  | cons hab hrest ih =>
    rename_i a b l1' l2'
    refine .cons ?_ (ih (fun x hx => hmem x (by simp [hx])))
    intro k
    obtain ⟨ha0, harem⟩ := hmem a (by simp)
    have hz : qlookup a.alloc k = 0 := by rw [ha0]; rfl
    have hcons := hab.2.1 k
    have hpos := hab.2.2 k (qlookup_nonneg_of_entries _ _ harem)
    rw [hz] at hcons
    linarith

/-- Prefixes commute with the allocation pass: the first `n` updated
states depend only on the first `n` input states. -/
theorem allocRowGo_take (item : String) (q : ℚ) (sts : List WoState) (n : ℕ) :
    (allocRowGo item q sts).1.take n = (allocRowGo item q (sts.take n)).1 := by
  induction sts generalizing q n with
  | nil => simp [allocRowGo]
  | cons st rest ih =>
    cases n with
    | zero => simp [allocRowGo]
    | succ m =>
      simp only [List.take_succ_cons, allocRowGo]
      by_cases h1 : qlookup st.rem item ≤ 0
      · simp [h1, ih]
      · simp only [if_neg h1]
        by_cases h2 : 0 < min (qlookup st.rem item) q
        · by_cases h3 : q - min (qlookup st.rem item) q ≤ epsBreak
          · simp [h2, h3]
          · simp [h2, h3, ih]
        · by_cases h4 : q ≤ epsBreak
          · simp [h2, h4]
          · simp [h2, h4, ih]

/-- Claim C2.  No over-allocation.  First part: after the whole
allocation pass starting from the `_remaining_map_for_wo` snapshot, each
order's allocated quantity for every item is at most that order's initial
remaining requirement.  Second part: within the pass for one pool row,
the allocated total over any prefix of orders grows by at most the pool
quantity, i.e. each allocation is bounded by the pool quantity still
unallocated at its moment. -/
theorem claim_C2 (env : Env) (rows : List PoolRow) (woOrder : List String)
    (item : String) (q : ℚ) (sts : List WoState) (n : ℕ) (hq : 0 ≤ q) :
    List.Forall₂ (fun a b => ∀ k, qlookup b.alloc k ≤ qlookup a.rem k)
      (woOrder.map (woInitState env)) (allocateAll rows (woOrder.map (woInitState env))) ∧
    allocTotals item ((allocRowGo item q sts).1.take n)
      ≤ allocTotals item (sts.take n) + q := by
  constructor
  · refine forall₂_alloc_le_rem
      (allocateAll_stepInv rows (woOrder.map (woInitState env))) ?_
    intro a ha
    obtain ⟨w, _, rfl⟩ := List.mem_map.1 ha
    refine ⟨rfl, ?_⟩
    intro p hp
    have hall : ∀ x ∈ (woInitState env w).rem, 0 < x.2 := by
      simp only [woInitState, remainingMapForWo]
      split
      · exact remainingFromMaps_pos _ _
      · exact remainingFromMaps_pos _ _
    exact (hall p hp).le
  · rw [allocRowGo_take]
    have hsum := allocRowGo_alloc_sum item q (sts.take n)
    have hq2 := allocRowGo_qty_nonneg item q (sts.take n) hq
    linarith

/-- Claim C2, witness: the theorem applied at the two-order scenario
with pool quantity 2 and prefix length 1. -/
theorem claim_C2_witness :
    List.Forall₂ (fun a b => ∀ k, qlookup b.alloc k ≤ qlookup a.rem k)
      ((["WO-1"]).map (woInitState envSimple))
      (allocateAll [] ((["WO-1"]).map (woInitState envSimple))) ∧
    allocTotals "ITEM-X" ((allocRowGo "ITEM-X" 2 cexStates).1.take 1)
      ≤ allocTotals "ITEM-X" (cexStates.take 1) + 2 :=
  claim_C2 envSimple [] ["WO-1"] "ITEM-X" 2 cexStates 1 (by norm_num)

/-- Elements of a list zipped with itself are diagonal pairs. -/
theorem mem_zip_self {α : Type} (l : List α) (y : α × α) (h : y ∈ l.zip l) :
    y.1 = y.2 := by
  induction l with
  | nil => cases h
  | cons a rest ih =>
    rcases List.mem_cons.1 h with rfl | h'
    · rfl
    · exact ih h'

/-- Claim C3.  FIFO priority: pairing every order's state before the
pass for one pool row with its state after, whenever a later order
received a positive quantity of the item, every earlier order's
allocation increased by exactly its full (nonnegative part of the)
remaining requirement — the earlier order is fully satisfied before the
later one receives anything.  Positions in the list are the FIFO
positions produced by `_order_wos_fifo`. -/
theorem claim_C3 (item : String) (q : ℚ) (sts : List WoState) :
    (sts.zip (allocRowGo item q sts).1).Pairwise
      (fun x y => 0 < qlookup y.2.alloc item - qlookup y.1.alloc item →
        qlookup x.2.alloc item - qlookup x.1.alloc item
          = max (qlookup x.1.rem item) 0) := by
  induction sts generalizing q with
  | nil => simp [allocRowGo]
  | cons st rest ih =>
    simp only [allocRowGo]
    by_cases h1 : qlookup st.rem item ≤ 0
    · simp only [if_pos h1, List.zip_cons_cons]
      refine List.Pairwise.cons ?_ (ih q)
      intro y _ _
      simp [max_eq_right h1]
    · simp only [if_neg h1]
      have hrem : 0 < qlookup st.rem item := lt_of_not_le h1
      have hvac : ∀ l : List WoState,
          (l.zip l).Pairwise
            (fun x y => 0 < qlookup y.2.alloc item - qlookup y.1.alloc item →
              qlookup x.2.alloc item - qlookup x.1.alloc item
                = max (qlookup x.1.rem item) 0) := by
        intro l
        induction l with
        | nil => simp
        | cons a r ihv =>
          simp only [List.zip_cons_cons]
          refine List.Pairwise.cons ?_ ihv
          intro y hy hpos
          rw [mem_zip_self r y hy] at hpos
          simp at hpos
      have hzero : ∀ (l : List WoState) (y : WoState × WoState), y ∈ l.zip l →
          ¬ 0 < qlookup y.2.alloc item - qlookup y.1.alloc item := by
        intro l y hy
        rw [mem_zip_self l y hy]
        simp
      by_cases h2 : 0 < min (qlookup st.rem item) q
      · by_cases h3 : q - min (qlookup st.rem item) q ≤ epsBreak
        · simp only [if_pos h2, if_pos h3, List.zip_cons_cons]
          refine List.Pairwise.cons ?_ (hvac rest)
          intro y hy hpos
          exact absurd hpos (hzero rest y hy)
        · simp only [if_pos h2, if_neg h3, List.zip_cons_cons]
          have htake : min (qlookup st.rem item) q = qlookup st.rem item := by
            rcases min_cases (qlookup st.rem item) q with ⟨he, _⟩ | ⟨he, hle⟩
            · exact he
            · exfalso
              apply h3
              rw [he]
              simp [epsBreak_pos.le]
          refine List.Pairwise.cons ?_ (ih _)
          intro y _ _
          simp only [qlookup_qadd_self, htake, max_eq_left hrem.le]
          ring
      · by_cases h4 : q ≤ epsBreak
        · simp only [if_neg h2, if_pos h4, List.zip_cons_cons]
          refine List.Pairwise.cons ?_ (hvac rest)
          intro y hy hpos
          exact absurd hpos (hzero rest y hy)
        · exfalso
          have hq0 : q ≤ 0 := by
            have := not_lt.1 h2
            rcases min_cases (qlookup st.rem item) q with ⟨he, _⟩ | ⟨he, _⟩
            · rw [he] at this; linarith
            · rw [he] at this; exact this
          exact h4 (le_trans hq0 epsBreak_pos.le)

theorem roundUpQty_ge (x : ℚ) : x ≤ roundUpQty x := by
  unfold roundUpQty
  rw [le_div_iff₀ (by norm_num : (0:ℚ) < 1000)]
  exact Int.le_ceil (x * 1000)

theorem roundUpQty_pos (x : ℚ) (h : 0 < x) : 0 < roundUpQty x := by
  unfold roundUpQty
  apply div_pos _ (by norm_num)
  exact_mod_cast Int.ceil_pos.2 (by positivity)

/-- Concrete evaluation of `_round_up_qty` from a bracketing of the
scaled value. -/
theorem roundUpQty_eval (x : ℚ) (n : ℤ) (h1 : (n : ℚ) - 1 < x * 1000)
    (h2 : x * 1000 ≤ (n : ℚ)) : roundUpQty x = (n : ℚ) / 1000 := by
  unfold roundUpQty
  rw [show (Int.ceil (x * 1000)) = n from Int.ceil_eq_iff.2 ⟨h1, by exact_mod_cast h2⟩]

theorem sumLineQty_append (a b : List SELine) :
    sumLineQty (a ++ b) = sumLineQty a + sumLineQty b := by
  simp [sumLineQty]

/-- Lower bound for the multi-batch emission loop: starting from running
total `acc`, the emitted quantities cover the smaller of the residual
`r - acc` and the proportional share of the batches still listed. -/
theorem batchSplitGo_sum_ge (ic : String) (r total : ℚ) (hr : 0 < r)
    (ht : 0 < total) (bs : List (String × ℚ)) :
    ∀ acc : ℚ,
      min (r - acc) (r * ((bs.map (fun b => b.2)).sum / total))
        ≤ sumLineQty (batchSplitGo ic r total acc bs) := by
  induction bs with
  | nil =>
    intro acc
    simp only [batchSplitGo, sumLineQty, List.map_nil, List.sum_nil]
    exact le_trans (min_le_right _ _) (by simp)
  | cons b rest ih =>
    intro acc
    cases rest with
    | nil =>
      simp only [batchSplitGo, List.map_cons, List.map_nil, List.sum_cons, List.sum_nil]
      by_cases hb : b.2 ≤ 0
      · simp only [if_pos hb, sumLineQty, List.map_nil, List.sum_nil]
        have hnp : r * ((b.2 + 0) / total) ≤ 0 := by
          apply mul_nonpos_of_nonneg_of_nonpos hr.le
          apply div_nonpos_of_nonpos_of_nonneg (by linarith) ht.le
        exact le_trans (min_le_right _ _) hnp
      · simp only [if_neg hb]
        by_cases hl : 0 < max 0 (r - acc)
        · simp only [if_pos hl, sumLineQty, List.map_cons, List.map_nil,
            List.sum_cons, List.sum_nil, add_zero]
          exact le_trans (min_le_left _ _) (le_max_right _ _)
        · simp only [if_neg hl, sumLineQty, List.map_nil, List.sum_nil]
          have h2 : r - acc ≤ 0 := le_trans (le_max_right 0 _) (not_lt.1 hl)
          exact le_trans (min_le_left _ _) h2
    | cons b2 rest2 =>
      simp only [batchSplitGo, List.map_cons, List.sum_cons] at ih ⊢
      by_cases hb : b.2 ≤ 0
      · simp only [if_pos hb]
        refine le_trans (min_le_min (le_refl _) ?_) (ih acc)
        apply mul_le_mul_of_nonneg_left _ hr.le
        exact (div_le_div_iff_of_pos_right ht).2 (by linarith)
      · simp only [if_neg hb]
        have hbpos : 0 < b.2 := lt_of_not_le hb
        have hlq : 0 < roundUpQty (r * (b.2 / total)) :=
          roundUpQty_pos _ (mul_pos hr (div_pos hbpos ht))
        have hge : r * (b.2 / total) ≤ roundUpQty (r * (b.2 / total)) := roundUpQty_ge _
        simp only [if_pos hlq, sumLineQty_append]
        have hline : sumLineQty [⟨ic, roundUpQty (r * (b.2 / total)), some b.1⟩]
            = roundUpQty (r * (b.2 / total)) := by simp [sumLineQty]
        rw [hline]
        have ihh := ih (acc + roundUpQty (r * (b.2 / total)))
        rcases le_total (r - (acc + roundUpQty (r * (b.2 / total))))
            (r * ((b2.2 + (rest2.map (fun b => b.2)).sum) / total)) with hc | hc
        · rw [min_eq_left hc] at ihh
          have hm : min (r - acc)
              (r * ((b.2 + (b2.2 + (rest2.map (fun b => b.2)).sum)) / total))
              ≤ r - acc := min_le_left _ _
          linarith
        · rw [min_eq_right hc] at ihh
          have hm : min (r - acc)
              (r * ((b.2 + (b2.2 + (rest2.map (fun b => b.2)).sum)) / total))
              ≤ r * ((b.2 + (b2.2 + (rest2.map (fun b => b.2)).sum)) / total) :=
            min_le_right _ _
          have hsplit : r * ((b.2 + (b2.2 + (rest2.map (fun b => b.2)).sum)) / total)
              = r * (b.2 / total)
                + r * ((b2.2 + (rest2.map (fun b => b.2)).sum) / total) := by
            ring
          linarith

/-- Exactness of the multi-batch emission loop when the final batch
entry is positive and the rounded earlier lines do not overshoot. -/
theorem batchSplitGo_sum_eq (ic : String) (r total : ℚ) (hr : 0 < r)
    (ht : 0 < total) (bs : List (String × ℚ)) :
    ∀ (acc : ℚ) (bid : String) (bq : ℚ),
      bs.getLast? = some (bid, bq) → 0 < bq →
      acc + earlierRounded r total bs ≤ r →
      sumLineQty (batchSplitGo ic r total acc bs) = r - acc := by
  induction bs with
  | nil =>
    intro acc bid bq h
    cases h
  | cons b rest ih =>
    intro acc bid bq hlast hbq hle
    cases rest with
    | nil =>
      have hb2 : b = (bid, bq) := by
        simpa [List.getLast?] using hlast
      subst hb2
      simp only [batchSplitGo, earlierRounded, add_zero] at hle ⊢
      simp only [if_neg (not_le.2 hbq)]
      by_cases hl : 0 < max 0 (r - acc)
      · simp only [if_pos hl, sumLineQty, List.map_cons, List.map_nil,
          List.sum_cons, List.sum_nil, add_zero]
        exact max_eq_right (by linarith)
      · simp only [if_neg hl, sumLineQty, List.map_nil, List.sum_nil]
        have h1 : r - acc ≤ 0 := le_trans (le_max_right 0 _) (not_lt.1 hl)
        linarith
    | cons b2 rest2 =>
      have hlast' : (b2 :: rest2).getLast? = some (bid, bq) := by
        simpa [List.getLast?_cons_cons] using hlast
      simp only [batchSplitGo, earlierRounded] at hle ⊢
      by_cases hb : b.2 ≤ 0
      · simp only [if_pos hb] at hle ⊢
        exact ih acc bid bq hlast' hbq (by linarith)
      · simp only [if_neg hb] at hle ⊢
        have hbpos : 0 < b.2 := lt_of_not_le hb
        have hlq : 0 < roundUpQty (r * (b.2 / total)) :=
          roundUpQty_pos _ (mul_pos hr (div_pos hbpos ht))
        simp only [if_pos hlq, sumLineQty_append]
        have hline : sumLineQty [⟨ic, roundUpQty (r * (b.2 / total)), some b.1⟩]
            = roundUpQty (r * (b.2 / total)) := by simp [sumLineQty]
        rw [hline, ih (acc + roundUpQty (r * (b.2 / total))) bid bq hlast' hbq
          (by linarith)]
        ring

/-- Claim C4, counterexample.  The claim states that the emitted batch
lines for one order always sum exactly to the order's rounded allocated
quantity, for any batch breakdown.  With allocated quantity 0.001 and
three equal batches, each of the two non-last lines rounds `0.001/3` up
to `0.001`, the last line's residual is clamped at zero and dropped, and
the emitted sum is `0.002`, not `0.001`. -/
theorem claim_C4_counterexample :
    sumLineQty (buildLinesForItem
        (.multi [("B1", 1), ("B2", 1), ("B3", 1)]) "ITEM-X" (1 / 1000))
      ≠ roundUpQty (1 / 1000) := by
  have e1 : roundUpQty ((1 : ℚ) / 1000) = 1 / 1000 := by
    have h := roundUpQty_eval ((1 : ℚ) / 1000) 1 (by norm_num) (by norm_num)
    norm_num at h
    exact h
  have e2 : roundUpQty ((1 : ℚ) / 3000) = 1 / 1000 := by
    have h := roundUpQty_eval ((1 : ℚ) / 3000) 1 (by norm_num) (by norm_num)
    norm_num at h
    exact h
  simp only [buildLinesForItem, batchSplitGo, e1]
  norm_num [sumLineQty, e2]

/-- Claim C4, amended.  For every order and batch-tracked item with a
multi-batch breakdown of positive total, the emitted per-batch
quantities sum to at least the rounded allocated quantity; the sum
equals it exactly whenever the breakdown's final entry is positive and
the rounded-up earlier lines total at most the rounded allocated
quantity (rounding overshoot of the earlier lines, or a non-positive
final entry, can make the emitted sum exceed the allocated quantity, as
the counterexample shows). -/
theorem claim_C4_amended (ic : String) (qty : ℚ) (bs : List (String × ℚ))
    (hq : 0 < qty) (htot : 0 < (bs.map (fun b => b.2)).sum) :
    roundUpQty qty ≤ sumLineQty (buildLinesForItem (.multi bs) ic qty) ∧
    (∀ bid bq, bs.getLast? = some (bid, bq) → 0 < bq →
      earlierRounded (roundUpQty qty) ((bs.map (fun b => b.2)).sum) bs
          ≤ roundUpQty qty →
      sumLineQty (buildLinesForItem (.multi bs) ic qty) = roundUpQty qty) := by
  have hr : 0 < roundUpQty qty := roundUpQty_pos _ hq
  have hopen : buildLinesForItem (.multi bs) ic qty
      = batchSplitGo ic (roundUpQty qty) ((bs.map (fun b => b.2)).sum) 0 bs := by
    simp only [buildLinesForItem, if_neg (not_le.2 htot)]
  constructor
  · rw [hopen]
    have hge := batchSplitGo_sum_ge ic (roundUpQty qty)
      ((bs.map (fun b => b.2)).sum) hr htot bs 0
    rw [sub_zero, div_self (ne_of_gt htot), mul_one, min_self] at hge
    exact hge
  · intro bid bq hlast hbq hle
    rw [hopen]
    have heq := batchSplitGo_sum_eq ic (roundUpQty qty)
      ((bs.map (fun b => b.2)).sum) hr htot bs 0 bid bq hlast hbq
      (by simpa using hle)
    simpa using heq

/-- Claim C4, witness: the amended theorem applied to an allocation of 1
split over two equal batches, where the split is exact. -/
theorem claim_C4_witness :
    ((0 : ℚ) < 1 ∧
      (0 : ℚ) < (([("B1", (1 : ℚ)), ("B2", 1)]).map (fun b => b.2)).sum) ∧
    roundUpQty 1 ≤ sumLineQty (buildLinesForItem
        (.multi [("B1", 1), ("B2", 1)]) "ITEM-X" 1) ∧
    sumLineQty (buildLinesForItem (.multi [("B1", 1), ("B2", 1)]) "ITEM-X" 1)
      = roundUpQty 1 := by
  have hq : (0 : ℚ) < 1 := by norm_num
  have htot : (0 : ℚ) < (([("B1", (1 : ℚ)), ("B2", 1)]).map (fun b => b.2)).sum := by
    norm_num
  have e1 : roundUpQty (1 : ℚ) = 1 := by
    have h := roundUpQty_eval (1 : ℚ) 1000 (by norm_num) (by norm_num)
    norm_num at h
    exact h
  have e2 : roundUpQty ((1 : ℚ) / 2) = 1 / 2 := by
    have h := roundUpQty_eval ((1 : ℚ) / 2) 500 (by norm_num) (by norm_num)
    norm_num at h
    exact h
  refine ⟨⟨hq, htot⟩,
    (claim_C4_amended "ITEM-X" 1 [("B1", 1), ("B2", 1)] hq htot).1,
    (claim_C4_amended "ITEM-X" 1 [("B1", 1), ("B2", 1)] hq htot).2 "B2" 1
      (by simp) (by norm_num) ?_⟩
  simp only [earlierRounded, List.map_cons, List.map_nil, List.sum_cons,
    List.sum_nil]
  norm_num [e1, e2]

/-- Claim C5, counterexample.  The claim states that for a work order
with neither a staging nor a WIP warehouse, `_remaining_map_for_wo`
fails with a `NoTargetWarehouse` error rather than returning a result.
In the source it raises nothing: with no resolvable warehouse it takes
the transferred map as empty and returns the full requirement, here the
nonempty map `[("ITEM-X", 5)]`. -/
theorem claim_C5_counterexample :
    remainingMapForWo [("ITEM-X", 5)] (fun _ => []) none ""
      = [("ITEM-X", 5)] := by
  simp only [remainingMapForWo, resolveTargetWh, remainingFromMaps,
    String.isEmpty_iff]
  norm_num [qlookup, List.filterMap_cons]

/-- Claim C5, amended.  `_remaining_map_for_wo` never fails: when
neither warehouse resolves it returns the requirement map with
transferred quantities taken as zero.  The `NoTargetWarehouse` error is
raised instead by `create_consolidated_transfers`, exactly when some
selected work order with a nonempty allocation has neither a staging nor
a WIP warehouse. -/
theorem claim_C5_amended :
    (∀ (req : QMap) (tr : String → QMap),
      remainingMapForWo req tr none "" = remainingFromMaps req []) ∧
    (∀ (env : Env) (bi : String → BatchInfo) (sts : List WoState),
      (∃ st ∈ sts, st.alloc ≠ [] ∧
          resolveTargetWh (env.staging st.wo) (env.wip st.wo) = none) ↔
        (∃ w, buildTransfers env bi sts = .error (.noTargetWarehouse w))) := by
  constructor
  · intro req tr
    rfl
  · intro env bi sts
    induction sts with
    | nil =>
      simp [buildTransfers]
    | cons st rest ih =>
      simp only [buildTransfers, buildTransferForWo]
      by_cases ha : st.alloc.isEmpty
      · have ha' : st.alloc = [] := by simpa [List.isEmpty_iff] using ha
        simp only [if_pos ha]
        constructor
        · rintro ⟨x, hx, hcond⟩
          rcases List.mem_cons.1 hx with rfl | hx'
          · exact absurd ha' hcond.1
          · exact ih.1 ⟨x, hx', hcond⟩
        · intro h
          obtain ⟨x, hx', hcond⟩ := ih.2 h
          exact ⟨x, by simp [hx'], hcond⟩
      · have ha' : ¬ st.alloc = [] := by simpa [List.isEmpty_iff] using ha
        simp only [if_neg ha]
        rcases hres : resolveTargetWh (env.staging st.wo) (env.wip st.wo) with _ | target
        · constructor
          · intro _
            exact ⟨st.wo, rfl⟩
          · intro _
            exact ⟨st, by simp, ha', hres⟩
        · rcases hrest : buildTransfers env bi rest with e | ts
          · simp only []
            constructor
            · rintro ⟨x, hx, hcond⟩
              rcases List.mem_cons.1 hx with rfl | hx'
              · rw [hres] at hcond
                cases hcond.2
              · have := ih.1 ⟨x, hx', hcond⟩
                rwa [hrest] at this
            · intro h
              obtain ⟨x, hx', hcond⟩ := ih.2 (by rwa [hrest])
              exact ⟨x, by simp [hx'], hcond⟩
          · simp only []
            constructor
            · rintro ⟨x, hx, hcond⟩
              rcases List.mem_cons.1 hx with rfl | hx'
              · rw [hres] at hcond
                cases hcond.2
              · have := ih.1 ⟨x, hx', hcond⟩
                rw [hrest] at this
                obtain ⟨w, hw⟩ := this
                cases hw
            · rintro ⟨w, hw⟩
              cases hw

/-- Claim C9, counterexample.  The claim states that a pool line with
zero or negative quantity makes the fan-out call fail immediately with
an `InvalidInput` error.  In the source such a line is silently skipped
by the allocation loop: the call below carries a single pool line of
quantity `-5` and succeeds, returning no transfers. -/
theorem claim_C9_counterexample :
    createConsolidatedTransfers envSimple "SRC-WH" ["WO-1"]
      [⟨"WO-1", some 1, 1⟩] [⟨"ITEM-X", -5, [], ""⟩] = .ok [] := by
  have hs : ("SRC-WH" : String).isEmpty = false := by decide
  simp only [createConsolidatedTransfers]
  norm_num [envSimple, hs, firstBatchError, batchInfoMap, orderWosFifo,
    woInitState, remainingMapForWo, resolveTargetWh, remainingFromMaps,
    qlookup, allocateAll, buildTransfers, buildTransferForWo]

/-- Claim C9, amended.  An empty order set and an empty pool do fail
immediately (`No Work Orders selected.` / `No items in the cart.`), in
that order; but a pool line with zero or negative quantity is not an
error: the allocation loop skips it (`continue`), allocating nothing
from it. -/
theorem claim_C9_amended :
    (∀ (env : Env) (src : String) (dbRows : List WORow) (rows : List PoolRow),
      createConsolidatedTransfers env src [] dbRows rows = .error .noWorkOrders) ∧
    (∀ (env : Env) (src : String) (wos : List String) (dbRows : List WORow),
      wos ≠ [] →
      createConsolidatedTransfers env src wos dbRows [] = .error .noItems) ∧
    (∀ (r : PoolRow) (rows : List PoolRow) (sts : List WoState), r.qty ≤ 0 →
      allocateAll (r :: rows) sts = allocateAll rows sts) := by
  refine ⟨?_, ?_, ?_⟩
  · intro env src dbRows rows
    simp [createConsolidatedTransfers]
  · intro env src wos dbRows hw
    simp [createConsolidatedTransfers, hw]
  · intro r rows sts hr
    simp [allocateAll, hr]

/-- Claim C9, witness: the amended theorem applied to one selected work
order with an empty cart, and to a negative-quantity pool row. -/
theorem claim_C9_witness :
    createConsolidatedTransfers envSimple "SRC-WH" ["WO-1"] [] []
      = .error .noItems ∧
    allocateAll [⟨"ITEM-X", -5, [], ""⟩] [] = allocateAll [] [] :=
  ⟨claim_C9_amended.2.1 envSimple "SRC-WH" ["WO-1"] [] (by simp),
   claim_C9_amended.2.2 ⟨"ITEM-X", -5, [], ""⟩ [] [] (by norm_num)⟩

theorem qadd_pos_entries (m : QMap) (k : String) (v : ℚ)
    (hm : ∀ p ∈ m, 0 < p.2) (hv : 0 < v) : ∀ p ∈ qadd m k v, 0 < p.2 := by
  induction m with
  | nil =>
    intro p hp
    simp only [qadd, List.mem_singleton] at hp
    subst hp
    exact hv
  | cons q rest ih =>
    intro p hp
    by_cases hq : q.1 = k
    · simp only [qadd, if_pos hq] at hp
      rcases List.mem_cons.1 hp with rfl | hp'
      · have := hm q (by simp)
        dsimp only
        linarith
      · exact hm p (by simp [hp'])
    · simp only [qadd, if_neg hq] at hp
      rcases List.mem_cons.1 hp with h1 | hp'
      · rw [h1]
        exact hm q (by simp)
      · exact ih (fun x hx => hm x (by simp [hx])) p hp'

/-- The allocation pass for one pool row keeps all recorded allocations
strictly positive. -/
theorem allocRowGo_allocPos (item : String) (q : ℚ) (sts : List WoState)
    (h : ∀ st ∈ sts, AllocPos st) :
    ∀ st ∈ (allocRowGo item q sts).1, AllocPos st := by
  induction sts generalizing q with
  | nil => simp [allocRowGo]
  | cons st rest ih =>
    simp only [allocRowGo]
    by_cases h1 : qlookup st.rem item ≤ 0
    · simp only [if_pos h1]
      intro x hx
      rcases List.mem_cons.1 hx with rfl | hx'
      · exact h x (by simp)
      · exact ih q (fun y hy => h y (by simp [hy])) x hx'
    · simp only [if_neg h1]
      by_cases h2 : 0 < min (qlookup st.rem item) q
      · have hstpos : AllocPos
            ⟨st.wo, qadd st.alloc item (min (qlookup st.rem item) q),
              qset st.rem item (qlookup st.rem item - min (qlookup st.rem item) q)⟩ :=
          qadd_pos_entries _ _ _ (h st (by simp)) h2
        by_cases h3 : q - min (qlookup st.rem item) q ≤ epsBreak
        · simp only [if_pos h2, if_pos h3]
          intro x hx
          rcases List.mem_cons.1 hx with rfl | hx'
          · exact hstpos
          · exact h x (by simp [hx'])
        · simp only [if_pos h2, if_neg h3]
          intro x hx
          rcases List.mem_cons.1 hx with rfl | hx'
          · exact hstpos
          · exact ih _ (fun y hy => h y (by simp [hy])) x hx'
      · by_cases h4 : q ≤ epsBreak
        · simp only [if_neg h2, if_pos h4]
          intro x hx
          rcases List.mem_cons.1 hx with rfl | hx'
          · exact h x (by simp)
          · exact h x (by simp [hx'])
        · simp only [if_neg h2, if_neg h4]
          intro x hx
          rcases List.mem_cons.1 hx with rfl | hx'
          · exact h x (by simp)
          · exact ih q (fun y hy => h y (by simp [hy])) x hx'

/-- The whole allocation keeps all recorded allocations strictly
positive. -/
theorem allocateAll_allocPos (rows : List PoolRow) (sts : List WoState)
    (h : ∀ st ∈ sts, AllocPos st) :
    ∀ st ∈ allocateAll rows sts, AllocPos st := by
  induction rows generalizing sts with
  | nil => simpa [allocateAll]
  | cons r rest ih =>
    simp only [allocateAll, List.foldl_cons]
    split
    · exact (by simpa [allocateAll] using ih sts h)
    · exact (by
        simpa [allocateAll] using
          ih (allocRowGo r.itemCode r.qty sts).1
            (allocRowGo_allocPos r.itemCode r.qty sts h))

/-- Every line emitted by the multi-batch loop is strictly positive (the
loop drops non-positive line quantities). -/
theorem batchSplitGo_lines_pos (ic : String) (r total acc : ℚ)
    (bs : List (String × ℚ)) :
    ∀ l ∈ batchSplitGo ic r total acc bs, 0 < l.qty := by
  induction bs generalizing acc with
  | nil => simp [batchSplitGo]
  | cons b rest ih =>
    cases rest with
    | nil =>
      intro l hl
      simp only [batchSplitGo] at hl
      split at hl
      · cases hl
      · split at hl
        · rename_i hpos
          rcases List.mem_singleton.1 hl with rfl
          exact hpos
        · cases hl
    | cons b2 rest2 =>
      intro l hl
      simp only [batchSplitGo] at hl
      split at hl
      · exact ih acc l hl
      · rcases List.mem_append.1 hl with hl' | hl'
        · split at hl'
          · rename_i hpos
            rcases List.mem_singleton.1 hl' with rfl
            exact hpos
          · cases hl'
        · exact ih _ l hl'

/-- Every line emitted for one allocated item is strictly positive when
the allocated quantity is. -/
theorem buildLinesForItem_pos (bi : BatchInfo) (ic : String) (q : ℚ)
    (hq : 0 < q) : ∀ l ∈ buildLinesForItem bi ic q, 0 < l.qty := by
  cases bi with
  | multi bs =>
    intro l hl
    simp only [buildLinesForItem] at hl
    split at hl
    · cases hl
    · exact batchSplitGo_lines_pos _ _ _ _ bs l hl
  | single b =>
    intro l hl
    rcases List.mem_singleton.1 hl with rfl
    exact roundUpQty_pos _ hq
  | noBatch =>
    intro l hl
    rcases List.mem_singleton.1 hl with rfl
    exact roundUpQty_pos _ hq

theorem linesForAlloc_pos (bi : String → BatchInfo) (alloc : QMap)
    (h : ∀ p ∈ alloc, 0 < p.2) :
    ∀ l ∈ linesForAlloc bi alloc, 0 < l.qty := by
  induction alloc with
  | nil => simp [linesForAlloc]
  | cons p rest ih =>
    intro l hl
    simp only [linesForAlloc] at hl
    rcases List.mem_append.1 hl with hl' | hl'
    · exact buildLinesForItem_pos _ _ _ (h p (by simp)) l hl'
    · exact ih (fun x hx => h x (by simp [hx])) l hl'

/-- Stock entries built from positively-allocated states carry only
positive lines. -/
theorem buildTransfers_pos (env : Env) (bi : String → BatchInfo)
    (sts : List WoState) (h : ∀ st ∈ sts, AllocPos st) (ts : List Transfer)
    (hok : buildTransfers env bi sts = .ok ts) :
    ∀ t ∈ ts, ∀ l ∈ t.lines, 0 < l.qty := by
  induction sts generalizing ts with
  | nil =>
    simp only [buildTransfers] at hok
    cases hok
    simp
  | cons st rest ih =>
    simp only [buildTransfers, buildTransferForWo] at hok
    by_cases ha : st.alloc.isEmpty
    · rw [if_pos ha] at hok
      exact ih (fun x hx => h x (by simp [hx])) ts hok
    · rw [if_neg ha] at hok
      rcases hres : resolveTargetWh (env.staging st.wo) (env.wip st.wo) with _ | target
      · rw [hres] at hok
        cases hok
      · rw [hres] at hok
        rcases hrest : buildTransfers env bi rest with e | ts'
        · rw [hrest] at hok
          cases hok
        · rw [hrest] at hok
          cases hok
          intro t ht
          rcases List.mem_cons.1 ht with rfl | ht'
          · exact linesForAlloc_pos bi st.alloc (h st (by simp))
          · exact ih (fun x hx => h x (by simp [hx])) ts' hrest t ht'

/-- Claim C10.  Every item line on a successfully constructed stock
entry carries a strictly positive quantity: the allocator records only
positive takes, the single-batch and no-batch paths round a positive
allocation up (ceiling, 3 decimals), and the multi-batch path drops
non-positive computed line quantities (including a clamped zero residual
on the last batch). -/
theorem claim_C10 (env : Env) (src : String) (wos : List String)
    (dbRows : List WORow) (rows : List PoolRow) (ts : List Transfer)
    (hok : createConsolidatedTransfers env src wos dbRows rows = .ok ts) :
    ∀ t ∈ ts, ∀ l ∈ t.lines, 0 < l.qty := by
  by_cases h1 : wos.isEmpty = true
  · simp only [createConsolidatedTransfers, if_pos h1] at hok
    cases hok
  · by_cases h2 : rows.isEmpty = true
    · simp only [createConsolidatedTransfers, if_neg h1, if_pos h2] at hok
      cases hok
    · by_cases h3 :
        ((if src.isEmpty = true then env.defaultWarehouse else src) : String).isEmpty = true
      · simp only [createConsolidatedTransfers, if_neg h1, if_neg h2, if_pos h3] at hok
        cases hok
      · rcases h4 : firstBatchError env rows with _ | ic
        · simp only [createConsolidatedTransfers, if_neg h1, if_neg h2, if_neg h3,
            h4] at hok
          refine buildTransfers_pos env (batchInfoMap rows) _ ?_ ts hok
          apply allocateAll_allocPos
          intro st hst
          obtain ⟨w, _, rfl⟩ := List.mem_map.1 hst
          intro p hp
          cases hp
        · simp only [createConsolidatedTransfers, if_neg h1, if_neg h2, if_neg h3,
            h4] at hok
          cases hok

/-- Claim C10, witness: a successful concrete run producing one transfer
with one positive line, to which the theorem applies. -/
theorem claim_C10_witness :
    createConsolidatedTransfers envSimple "SRC-WH" ["WO-1"]
        [⟨"WO-1", some 1, 1⟩] [⟨"ITEM-X", 2, [], ""⟩]
      = .ok [⟨"WO-1", "STG-WH", [⟨"ITEM-X", 2, none⟩]⟩] ∧
    ∀ t ∈ [(⟨"WO-1", "STG-WH", [⟨"ITEM-X", (2 : ℚ), none⟩]⟩ : Transfer)],
      ∀ l ∈ t.lines, 0 < l.qty := by
  have hs : ("SRC-WH" : String).isEmpty = false := by decide
  have hstg : ("STG-WH" : String).isEmpty = false := by decide
  have hitem : ("ITEM-X" : String).isEmpty = false := by decide
  have hemp : ("" : String).isEmpty = true := by decide
  have e2 : roundUpQty (2 : ℚ) = 2 := by
    have h := roundUpQty_eval (2 : ℚ) 2000 (by norm_num) (by norm_num)
    norm_num at h
    exact h
  have hrun : createConsolidatedTransfers envSimple "SRC-WH" ["WO-1"]
      [⟨"WO-1", some 1, 1⟩] [⟨"ITEM-X", 2, [], ""⟩]
      = .ok [⟨"WO-1", "STG-WH", [⟨"ITEM-X", 2, none⟩]⟩] := by
    simp only [createConsolidatedTransfers]
    norm_num [envSimple, hs, hstg, hitem, hemp, firstBatchError,
      batchInfoMap, rowBatchInfo, orderWosFifo, woInitState,
      remainingMapForWo, resolveTargetWh, remainingFromMaps, qlookup,
      List.filterMap_cons, allocateAll, allocRowGo, qadd, qset, epsBreak,
      min_def, buildTransfers, buildTransferForWo, linesForAlloc,
      buildLinesForItem, e2]
  exact ⟨hrun,
    claim_C10 envSimple "SRC-WH" ["WO-1"] [⟨"WO-1", some 1, 1⟩]
      [⟨"ITEM-X", 2, [], ""⟩] _ hrun⟩

theorem optLT_irrefl (a : Option Nat) : ¬ optLT a a := by
  cases a <;> simp [optLT]

theorem optLT_asymm {a b : Option Nat} (h1 : optLT a b) (h2 : optLT b a) :
    False := by
  cases a <;> cases b <;> simp [optLT] at h1 h2
  omega

theorem keyLT_asymm (a b : WORow) (h1 : keyLT a b) (h2 : keyLT b a) : False := by
  rcases h1 with h1 | ⟨e1, c1⟩
  · rcases h2 with h2 | ⟨e2, c2⟩
    · exact optLT_asymm h1 h2
    · rw [e2] at h1
      exact optLT_irrefl _ h1
  · rcases h2 with h2 | ⟨e2, c2⟩
    · rw [e1] at h2
      exact optLT_irrefl _ h2
    · omega

instance : IsAntisymm WORow keyLT :=
  ⟨fun a b h1 h2 => (keyLT_asymm a b h1 h2).elim⟩

theorem keyLT_of_keyLE_ne {a b : WORow} (h : keyLE a b)
    (hne : keyPair a ≠ keyPair b) : keyLT a b := by
  rcases h with h | ⟨e, c⟩
  · exact Or.inl h
  · refine Or.inr ⟨e, ?_⟩
    rcases lt_or_eq_of_le c with h' | h'
    · exact h'
    · exact absurd (by simp [keyPair, e, h']) hne

/-- Claim C6, counterexample.  The claim states that the service order
is ascending by planned-start falling back to creation, with ties broken
by the order identifier, hence deterministic.  First part: two orders
sharing both timestamps can come back from the database in either order
(the SQL `ORDER BY` has no identifier tie-break), so two valid database
answers produce different service orders, and one of them violates the
claimed identifier tie-break.  Second part: a NULL planned start sorts
first regardless of creation (SQL NULLs-first), not by the claimed
creation-timestamp fallback key, so a code-valid answer violates the
claimed ordering outright. -/
theorem claim_C6_counterexample :
    (dbResultOk [⟨"WO-A", none, 5⟩, ⟨"WO-B", none, 5⟩]
        [⟨"WO-B", none, 5⟩, ⟨"WO-A", none, 5⟩] ∧
      dbResultOk [⟨"WO-A", none, 5⟩, ⟨"WO-B", none, 5⟩]
        [⟨"WO-A", none, 5⟩, ⟨"WO-B", none, 5⟩] ∧
      orderWosFifo ["WO-A", "WO-B"] [⟨"WO-B", none, 5⟩, ⟨"WO-A", none, 5⟩]
        ≠ orderWosFifo ["WO-A", "WO-B"] [⟨"WO-A", none, 5⟩, ⟨"WO-B", none, 5⟩]) ∧
    (dbResultOk [⟨"WO-C", none, 10⟩, ⟨"WO-D", some 5, 1⟩]
        [⟨"WO-C", none, 10⟩, ⟨"WO-D", some 5, 1⟩] ∧
      ¬ List.Sorted specFifoLE [⟨"WO-C", none, 10⟩, ⟨"WO-D", some 5, 1⟩]) := by
  decide

/-- Claim C6, amended.  The database serves the selected rows sorted by
the lexicographic key (planned-start with NULL first, then creation);
whenever no two candidate rows share both timestamps the answer — and
hence the service order — is uniquely determined; with full timestamp
ties the database order, and so the service order, is unspecified. -/
theorem claim_C6_amended (names : List String) (c r1 r2 : List WORow)
    (h1 : dbResultOk c r1) (h2 : dbResultOk c r2)
    (hk : c.Pairwise (fun a b => keyPair a ≠ keyPair b)) :
    r1.Sorted keyLE ∧ orderWosFifo names r1 = orderWosFifo names r2 := by
  refine ⟨h1.2, ?_⟩
  have hsymm : ∀ {x y : WORow}, keyPair x ≠ keyPair y → keyPair y ≠ keyPair x :=
    fun h e => h e.symm
  have hk1 : r1.Pairwise (fun a b => keyPair a ≠ keyPair b) :=
    (h1.1.pairwise_iff hsymm).2 hk
  have hk2 : r2.Pairwise (fun a b => keyPair a ≠ keyPair b) :=
    (h2.1.pairwise_iff hsymm).2 hk
  have hs1 : r1.Sorted keyLT :=
    ((h1.2).and hk1).imp (fun h => keyLT_of_keyLE_ne h.1 h.2)
  have hs2 : r2.Sorted keyLT :=
    ((h2.2).and hk2).imp (fun h => keyLT_of_keyLE_ne h.1 h.2)
  have hperm : r1.Perm r2 := h1.1.trans h2.1.symm
  rw [List.eq_of_perm_of_sorted hperm hs1 hs2]

/-- Claim C6, witness: with two candidates of distinct planned-start
timestamps, the amended theorem pins the unique sorted answer. -/
theorem claim_C6_witness :
    List.Sorted keyLE [⟨"WO-A", some 1, 0⟩, ⟨"WO-B", some 2, 0⟩] ∧
    orderWosFifo ["WO-A", "WO-B"] [⟨"WO-A", some 1, 0⟩, ⟨"WO-B", some 2, 0⟩]
      = orderWosFifo ["WO-A", "WO-B"]
          [⟨"WO-A", some 1, 0⟩, ⟨"WO-B", some 2, 0⟩] :=
  claim_C6_amended ["WO-A", "WO-B"]
    [⟨"WO-A", some 1, 0⟩, ⟨"WO-B", some 2, 0⟩]
    [⟨"WO-A", some 1, 0⟩, ⟨"WO-B", some 2, 0⟩]
    [⟨"WO-A", some 1, 0⟩, ⟨"WO-B", some 2, 0⟩]
    (by decide) (by decide) (by decide)

/-- Claim C7.  Stage-status classification for a work order with a
resolvable target warehouse: "Not Staged" iff no committed movement rows
exist; "Partial" iff rows exist and some required leaf item is
under-covered at the configured comparison precision `p`; "Staged" iff
rows exist and every required leaf item is covered; and non-leaf
(sub-assembly) BOM lines never affect the outcome. -/
theorem claim_C7 (staging : Option String) (wip : String) (w : String)
    (rows : QMap) (bomLines : List BOMLine) (woQty : ℚ) (p : ℚ → ℚ)
    (hres : resolveTargetWh staging wip = some w) :
    (stageStatus staging wip rows bomLines woQty p = "Not Staged" ↔ rows = []) ∧
    (stageStatus staging wip rows bomLines woQty p = "Partial" ↔
      rows ≠ [] ∧ ∃ pr ∈ requiredLeafMapForWo bomLines woQty,
        p (qlookup rows pr.1) < p pr.2) ∧
    (stageStatus staging wip rows bomLines woQty p = "Staged" ↔
      rows ≠ [] ∧ ∀ pr ∈ requiredLeafMapForWo bomLines woQty,
        p pr.2 ≤ p (qlookup rows pr.1)) ∧
    stageStatus staging wip rows bomLines woQty p
      = stageStatus staging wip rows
          (bomLines.filter (fun l => l.bomNo.isEmpty)) woQty p := by
  have hfilter :
      requiredLeafMapForWo (bomLines.filter (fun l => l.bomNo.isEmpty)) woQty
        = requiredLeafMapForWo bomLines woQty := by
    simp [requiredLeafMapForWo, List.filter_filter]
  have hmain : ∀ bl : List BOMLine, stageStatus staging wip rows bl woQty p
      = (if rows.isEmpty then "Not Staged"
         else if (requiredLeafMapForWo bl woQty).any
             (fun pr => decide (p (qlookup rows pr.1) < p pr.2)) then "Partial"
         else "Staged") := by
    intro bl
    simp only [stageStatus, hres]
  rw [hmain, hmain, hfilter]
  by_cases hrow : rows.isEmpty
  · have hr : rows = [] := List.isEmpty_iff.1 hrow
    simp only [if_pos hrow]
    refine ⟨by simp [hr], ?_, ?_, trivial⟩
    · constructor
      · intro h
        exact absurd h (by decide)
      · rintro ⟨hne, -⟩
        exact absurd hr hne
    · constructor
      · intro h
        exact absurd h (by decide)
      · rintro ⟨hne, -⟩
        exact absurd hr hne
  · have hr : rows ≠ [] := fun h => hrow (by simp [h])
    simp only [if_neg hrow]
    by_cases hany : (requiredLeafMapForWo bomLines woQty).any
        (fun pr => decide (p (qlookup rows pr.1) < p pr.2)) = true
    · simp only [if_pos hany]
      obtain ⟨x, hx, hdec⟩ := List.any_eq_true.1 hany
      refine ⟨?_, ?_, ?_, trivial⟩
      · constructor
        · intro h
          exact absurd h (by decide)
        · intro h
          exact absurd h hr
      · exact ⟨fun _ => ⟨hr, x, hx, of_decide_eq_true hdec⟩, fun _ => trivial⟩
      · constructor
        · intro h
          exact absurd h (by decide)
        · rintro ⟨-, hall⟩
          exact absurd (hall x hx) (not_le.2 (of_decide_eq_true hdec))
    · simp only [if_neg hany]
      have hall : ∀ pr ∈ requiredLeafMapForWo bomLines woQty,
          p pr.2 ≤ p (qlookup rows pr.1) := by
        intro pr hpr
        by_contra hcon
        exact hany (List.any_eq_true.2 ⟨pr, hpr, decide_eq_true (not_le.1 hcon)⟩)
      refine ⟨?_, ?_, ?_, trivial⟩
      · constructor
        · intro h
          exact absurd h (by decide)
        · intro h
          exact absurd h hr
      · constructor
        · intro h
          exact absurd h (by decide)
        · rintro ⟨-, x, hx, hlt⟩
          exact absurd (hall x hx) (not_le.2 hlt)
      · exact ⟨fun _ => ⟨hr, hall⟩, fun _ => trivial⟩

/-- Claim C7, witness: the classification applied to one covered leaf
item with a staging warehouse configured, at the identity precision. -/
theorem claim_C7_witness :
    stageStatus (some "STG-WH") "" [("ITEM-X", 5)] [⟨"ITEM-X", 1, ""⟩] 5
        (fun x => x) = "Staged" ↔
      [("ITEM-X", (5 : ℚ))] ≠ [] ∧
        ∀ pr ∈ requiredLeafMapForWo [⟨"ITEM-X", 1, ""⟩] 5,
          (fun x : ℚ => x) pr.2 ≤ (fun x : ℚ => x) (qlookup [("ITEM-X", 5)] pr.1) :=
  (claim_C7 (some "STG-WH") "" "STG-WH" [("ITEM-X", 5)] [⟨"ITEM-X", 1, ""⟩] 5
    (fun x => x) (by decide)).2.2.1

theorem sum_map_scaled (a T : ℚ) (l : List (String × ℚ)) :
    (l.map (fun x => a * (x.2 / T))).sum = a * ((l.map (fun x => x.2)).sum / T) := by
  induction l with
  | nil => simp
  | cons x rest ih =>
    simp only [List.map_cons, List.sum_cons, ih]
    ring

/-- Claim C8.  Closure proportionality: for a non-empty order set with
positive total planned quantity, `_calculate_proportional_split` returns
exactly the shares `aggregate * (orderQty / totalQty)` for good, reject
and every packaging item, and the good (resp. reject) shares sum to the
input good (resp. reject) quantity, exactly over exact arithmetic. -/
theorem claim_C8 (endedWos : List (String × ℚ)) (good reject : ℚ)
    (packaging : List (String × ℚ))
    (htot : 0 < (endedWos.map (fun x => x.2)).sum)
    (_hnd : (endedWos.map (fun x => x.1)).Nodup) :
    ∃ shares,
      calculateProportionalSplit endedWos good reject packaging = some shares ∧
      shares = endedWos.map (fun x =>
        ⟨x.1, good * (x.2 / (endedWos.map (fun y => y.2)).sum),
          reject * (x.2 / (endedWos.map (fun y => y.2)).sum),
          packaging.map (fun it =>
            (it.1, it.2 * (x.2 / (endedWos.map (fun y => y.2)).sum)))⟩) ∧
      (shares.map (fun s => s.good)).sum = good ∧
      (shares.map (fun s => s.reject)).sum = reject := by
  refine ⟨_, ?_, rfl, ?_, ?_⟩
  · simp only [calculateProportionalSplit, if_neg (not_le.2 htot)]
  · rw [List.map_map]
    have heq : ((fun s : ClosureShare => s.good) ∘ (fun x : String × ℚ =>
        (⟨x.1, good * (x.2 / (endedWos.map (fun y => y.2)).sum),
          reject * (x.2 / (endedWos.map (fun y => y.2)).sum),
          packaging.map (fun it =>
            (it.1, it.2 * (x.2 / (endedWos.map (fun y => y.2)).sum)))⟩ : ClosureShare)))
        = fun x : String × ℚ => good * (x.2 / (endedWos.map (fun y => y.2)).sum) := rfl
    rw [heq, sum_map_scaled, div_self (ne_of_gt htot), mul_one]
  · rw [List.map_map]
    have heq : ((fun s : ClosureShare => s.reject) ∘ (fun x : String × ℚ =>
        (⟨x.1, good * (x.2 / (endedWos.map (fun y => y.2)).sum),
          reject * (x.2 / (endedWos.map (fun y => y.2)).sum),
          packaging.map (fun it =>
            (it.1, it.2 * (x.2 / (endedWos.map (fun y => y.2)).sum)))⟩ : ClosureShare)))
        = fun x : String × ℚ => reject * (x.2 / (endedWos.map (fun y => y.2)).sum) := rfl
    rw [heq, sum_map_scaled, div_self (ne_of_gt htot), mul_one]

/-- Claim C8, witness: the splitter applied to two orders of planned
quantities 30 and 70 closing 100 good and 10 reject units. -/
theorem claim_C8_witness :
    ∃ shares,
      calculateProportionalSplit [("WO-A", 30), ("WO-B", 70)] 100 10
          [("PKG", 5)] = some shares ∧
      shares = ([("WO-A", 30), ("WO-B", 70)] : List (String × ℚ)).map (fun x =>
        ⟨x.1, 100 * (x.2 / (([("WO-A", (30 : ℚ)), ("WO-B", 70)]).map
            (fun y => y.2)).sum),
          10 * (x.2 / (([("WO-A", (30 : ℚ)), ("WO-B", 70)]).map
            (fun y => y.2)).sum),
          ([("PKG", (5 : ℚ))]).map (fun it =>
            (it.1, it.2 * (x.2 / (([("WO-A", (30 : ℚ)), ("WO-B", 70)]).map
              (fun y => y.2)).sum)))⟩) ∧
      (shares.map (fun s => s.good)).sum = 100 ∧
      (shares.map (fun s => s.reject)).sum = 10 :=
  claim_C8 [("WO-A", 30), ("WO-B", 70)] 100 10 [("PKG", 5)]
    (by norm_num) (by decide)

end Isnack
